import Mathlib

/-!
Shallow embedding of the grouping-based auto-scheduler in
`src/AutoSchedule.cpp` (Devolutions/Halide), together with proofs about the
partitioner's cost model, its estimate checks, its tile enumeration and its
region analysis.  Machine integers of the source are modelled as unbounded
`Int` values; the `unknown` sentinel of the source's cost arithmetic is kept
as a distinguished `Int` constant.  External collaborators of the core
(bounds engine, region-cost oracle, schedule applier) appear as explicit
function parameters, exactly at the call sites the source uses them.
-/

namespace AutoSched

/-- Modelled from the spec: the *unknown* sentinel for 64-bit cost, extent
and parallelism values.  It is declared in `AutoScheduleUtils.h`, which is
not under `src/`; the spec describes cost values as `Known(i64) | Unknown`
tagged variants and the code realises `Unknown` as a distinguished negative
`int64_t` constant. -/
def unknown : Int := -9223372036854775808

/-- Association-list model of `std::map` lookups (`find` / `get_element`). -/
def lookupA {κ α : Type} [DecidableEq κ] : List (κ × α) → κ → Option α
  | [], _ => none
  | (k, v) :: rest, key => if k = key then some v else lookupA rest key

/-- Association-list model of `std::map::operator[]` assignment: replace the
binding when the key is present, append it otherwise. -/
def insertA {κ α : Type} [DecidableEq κ] : List (κ × α) → κ → α → List (κ × α)
  | [], key, v => [(key, v)]
  | (k, w) :: rest, key, v =>
    if k = key then (key, v) :: rest else (k, w) :: insertA rest key v

/-- Association-list model of `std::map::erase` by key. -/
def eraseA {κ α : Type} [DecidableEq κ] : List (κ × α) → κ → List (κ × α)
  | [], _ => []
  | (k, w) :: rest, key => if k = key then rest else (k, w) :: eraseA rest key

/-- Model of `std::set::insert`: append the element when it is absent. -/
def insertSet {α : Type} [DecidableEq α] (l : List α) (x : α) : List α :=
  if l.contains x then l else l ++ [x]

/-- The `Cost` pair of arithmetic and memory cost (`RegionCosts.h`). -/
structure CostM where
  arith : Int
  memory : Int
deriving DecidableEq, Repr

/-- `Partitioner::GroupAnalysis`: cost of a group plus the parallelism that
can be exploited while computing it. -/
structure GroupAnalysisM where
  cost : CostM
  parallelism : Int
deriving DecidableEq, Repr

/-- The all-unknown `GroupAnalysis` used by `analyze_group` for its early
returns (`g_analysis.cost = Cost(unknown, unknown); parallelism = unknown`). -/
def unknownAnalysis : GroupAnalysisM := ⟨⟨unknown, unknown⟩, unknown⟩

/-- `Partitioner::estimate_benefit` (pairwise form, AutoSchedule.cpp
lines 1773-1802), with the machine parallelism passed explicitly.  Returns
`unknown` from the parallelism guard, from either unknown arithmetic cost,
from the redundant-work guard, or from either unknown memory cost; otherwise
the sum of the memory and arithmetic benefits. -/
def estimate_benefit (arch_parallelism : Int)
    (old_grouping new_grouping : GroupAnalysisM)
    (no_redundant_work ensure_parallelism : Bool) : Int :=
  if ensure_parallelism ∧ new_grouping.parallelism < arch_parallelism then
    unknown
  else if old_grouping.cost.arith ≠ unknown ∧ new_grouping.cost.arith ≠ unknown then
    if no_redundant_work ∧ old_grouping.cost.arith - new_grouping.cost.arith < 0 then
      unknown
    else if old_grouping.cost.memory ≠ unknown ∧ new_grouping.cost.memory ≠ unknown then
      (old_grouping.cost.memory - new_grouping.cost.memory) +
        (old_grouping.cost.arith - new_grouping.cost.arith)
    else
      unknown
  else
    unknown

/-- Claim C3: for all analyses and flags, the pairwise `estimate_benefit`
returns `(old.arith − new.arith) + (old.memory − new.memory)`, except that it
returns `unknown` when any of the four cost fields is unknown, or when
`ensure_parallelism` holds and `new.parallelism` is below the machine
parallelism, or when `no_redundant_work` holds and the arithmetic benefit is
negative. -/
theorem estimate_benefit_spec (mp : Int) (old_g new_g : GroupAnalysisM)
    (nr ep : Bool) :
    estimate_benefit mp old_g new_g nr ep =
      if old_g.cost.arith = unknown ∨ new_g.cost.arith = unknown ∨
         old_g.cost.memory = unknown ∨ new_g.cost.memory = unknown ∨
         (ep = true ∧ new_g.parallelism < mp) ∨
         (nr = true ∧ old_g.cost.arith - new_g.cost.arith < 0) then
        unknown
      else
        (old_g.cost.arith - new_g.cost.arith) +
          (old_g.cost.memory - new_g.cost.memory) := by
  unfold estimate_benefit
  cases nr <;> cases ep <;>
    simp only [Bool.false_eq_true, false_and, eq_self_iff_true, true_and,
      if_false, if_true, false_or, or_false] <;>
    split_ifs <;> omega

/-- A user bound/estimate `{var, min, extent}` (`Bound` in the IR).  The
`min` and `extent` expressions are modelled by `Option Int`: `some v` when
the expression is an `IntImm` literal of value `v`, `none` for any other
(symbolic) expression, so `Option.isSome` models `as<IntImm>()`. -/
structure BoundM where
  var : String
  bmin : Option Int
  extent : Option Int
deriving DecidableEq, Repr

/-- A loop level, as stored in the schedule's compute/store level slots. -/
inductive LoopLevelM
  | root
  | inlined
  | at_level (func : String) (v : String)
deriving DecidableEq, Repr

/-- The slice of a definition's schedule that `AutoSchedule.cpp` touches in
its early-exit path: store level, compute level and the user estimates. -/
structure ScheduleM where
  store_level : LoopLevelM
  compute_level : LoopLevelM
  estimates : List BoundM
deriving DecidableEq, Repr

/-- The slice of an IR `Function` consumed by `check_estimates_on_outputs`
and `set_schedule_defaults`: name, pure argument names, the pure
definition's schedule and one schedule per update definition. -/
structure FuncM where
  fname : String
  args : List String
  sched : ScheduleM
  update_scheds : List ScheduleM
deriving DecidableEq, Repr

/-- `set_schedule_defaults` (AutoSchedule.cpp lines 75-86): set the store
and compute level of the pure definition and of every update definition of
every function in the environment to root. -/
def set_schedule_defaults (env : List (String × FuncM)) : List (String × FuncM) :=
  env.map (fun kv =>
    (kv.1,
     { kv.2 with
       sched := { kv.2.sched with
                  store_level := LoopLevelM.root
                  compute_level := LoopLevelM.root }
       update_scheds := kv.2.update_scheds.map (fun u =>
         { u with
           store_level := LoopLevelM.root
           compute_level := LoopLevelM.root }) }))

/-- The per-output body of `check_estimates_on_outputs` (lines 90-109): the
estimate list must have exactly one entry per pure argument position, and
each estimate must name some pure argument and have `IntImm` min and
extent.  The `break`-out-of-the-loop control flow of the source computes
exactly this conjunction. -/
def check_output_estimates (out : FuncM) : Bool :=
  (out.sched.estimates.length = out.args.length) &&
    out.sched.estimates.all (fun e =>
      out.args.contains e.var && e.bmin.isSome && e.extent.isSome)

/-- `check_estimates_on_outputs` (lines 88-109): true iff every pipeline
output passes `check_output_estimates`.  The source keeps a flag that is
set to false and never reset, which computes this conjunction. -/
def check_estimates_on_outputs (outputs : List FuncM) : Bool :=
  outputs.all check_output_estimates

/-- `generate_schedules` (lines 2635-2722), with the whole
post-estimate-check pipeline (dependence analysis, pipeline bounds, cost
model, partitioner, schedule emission) abstracted as `run_partitioner`,
the collaborator that consumes the environment and produces the transcript
plus mutated environment.  The result is `(transcript, environment,
missing-estimate warning emitted)`. -/
def generate_schedules (run_partitioner : List (String × FuncM) → String × List (String × FuncM))
    (outputs : List FuncM) (env : List (String × FuncM)) :
    String × List (String × FuncM) × Bool :=
  if check_estimates_on_outputs outputs then
    ((run_partitioner env).1, (run_partitioner env).2, false)
  else
    ("", set_schedule_defaults env, true)

/-- Both levels of a schedule record are root. -/
def schedule_is_root (s : ScheduleM) : Prop :=
  s.store_level = LoopLevelM.root ∧ s.compute_level = LoopLevelM.root

/-- Spec-side reading of "some output dimension lacks an estimate": some
pure argument of some output is named by no estimate of that output. -/
def some_output_dim_lacks_estimate (outputs : List FuncM) : Bool :=
  outputs.any (fun out =>
    out.args.any (fun a => out.sched.estimates.all (fun e => e.var ≠ a)))

/-- Output function whose estimate list names `x` twice and `y` never: the
dimension `y` lacks an estimate, yet the estimate count matches the
argument count and every estimate names a pure argument with literal
bounds. -/
def dupEstOut : FuncM :=
  { fname := "f"
    args := ["x", "y"]
    sched := { store_level := LoopLevelM.inlined
               compute_level := LoopLevelM.inlined
               estimates := [⟨"x", some 0, some 10⟩, ⟨"x", some 0, some 10⟩] }
    update_scheds := [] }

/-- Environment containing only `dupEstOut`. -/
def dupEstEnv : List (String × FuncM) := [("f", dupEstOut)]

/-- A stand-in partitioner that returns a non-empty transcript, so that the
branch taken by `generate_schedules` is visible in the result. -/
def someTranscript : List (String × FuncM) → String × List (String × FuncM) :=
  fun env => ("f.compute_root();", env)

/-- Claim C2 counterexample: on the pipeline whose only output has a
duplicated `x` estimate and no `y` estimate, some output dimension lacks an
estimate, yet `generate_schedules` runs the partitioner: it emits no
missing-estimate warning, returns a non-empty transcript, and does not
reset the schedules to root. -/
theorem generate_schedules_missing_dim_counterexample :
    some_output_dim_lacks_estimate [dupEstOut] = true ∧
    generate_schedules someTranscript [dupEstOut] dupEstEnv =
      ("f.compute_root();", dupEstEnv, false) ∧
    ("f.compute_root();" : String) ≠ "" := by
  refine ⟨by decide, by decide, by decide⟩

/-- Claim C2 (amended): `generate_schedules` takes the warning path exactly
when `check_estimates_on_outputs` fails — that is, when some output's
estimate list does not have one entry per pure-argument position, or some
estimate names no pure argument or has a non-literal min or extent (a
dimension missing an estimate is caught unless masked by a duplicate
estimate).  On that path it emits the user warning, sets the compute and
store level of every stage of every function in the environment to root,
and returns the empty transcript without running the partitioner; when the
check passes it proceeds to the partitioner. -/
theorem generate_schedules_estimate_gate
    (rp : List (String × FuncM) → String × List (String × FuncM))
    (outputs : List FuncM) (env : List (String × FuncM)) :
    (check_estimates_on_outputs outputs = false →
      generate_schedules rp outputs env = ("", set_schedule_defaults env, true) ∧
      ∀ p ∈ set_schedule_defaults env,
        schedule_is_root p.2.sched ∧ ∀ u ∈ p.2.update_scheds, schedule_is_root u) ∧
    (check_estimates_on_outputs outputs = true →
      generate_schedules rp outputs env = ((rp env).1, (rp env).2, false)) := by
  constructor
  · intro hfail
    constructor
    · simp [generate_schedules, hfail]
    · intro p hp
      simp only [set_schedule_defaults, List.mem_map] at hp
      obtain ⟨kv, _, rfl⟩ := hp
      refine ⟨⟨rfl, rfl⟩, ?_⟩
      intro u hu
      simp only [List.mem_map] at hu
      obtain ⟨u₀, _, rfl⟩ := hu
      exact ⟨rfl, rfl⟩
  · intro hok
    simp [generate_schedules, hok]

/-- Witness for the hypotheses of `generate_schedules_estimate_gate`: a
single output with no estimates fails the check, and the fallback result is
reached with every schedule reset to root. -/
def noEstOut : FuncM :=
  { fname := "g"
    args := ["x"]
    sched := { store_level := LoopLevelM.inlined
               compute_level := LoopLevelM.inlined
               estimates := [] }
    update_scheds := [{ store_level := LoopLevelM.inlined
                        compute_level := LoopLevelM.inlined
                        estimates := [] }] }

/-- Claim C2 witness: `generate_schedules_estimate_gate` applied to the
no-estimate pipeline (failing branch) and to the duplicated-estimate
pipeline (passing branch). -/
theorem generate_schedules_estimate_gate_witness :
    (generate_schedules someTranscript [noEstOut] [("g", noEstOut)] =
      ("", set_schedule_defaults [("g", noEstOut)], true) ∧
      ∀ p ∈ set_schedule_defaults [("g", noEstOut)],
        schedule_is_root p.2.sched ∧ ∀ u ∈ p.2.update_scheds, schedule_is_root u) ∧
    generate_schedules someTranscript [dupEstOut] dupEstEnv =
      ((someTranscript dupEstEnv).1, (someTranscript dupEstEnv).2, false) :=
  ⟨(generate_schedules_estimate_gate someTranscript [noEstOut] [("g", noEstOut)]).1
      (by decide),
   (generate_schedules_estimate_gate someTranscript [dupEstOut] dupEstEnv).2
      (by decide)⟩

/-- Claim C9 counterexample: an output whose estimates name `u` twice and
`v` never passes `check_estimates_on_outputs`, although not every pure
argument has an estimate — so "returns true only when every output has one
estimate per pure argument" fails on duplicates. -/
def dupEstOut2 : FuncM :=
  { fname := "h"
    args := ["u", "v"]
    sched := { store_level := LoopLevelM.root
               compute_level := LoopLevelM.root
               estimates := [⟨"u", some 0, some 31⟩, ⟨"u", some 0, some 63⟩] }
    update_scheds := [] }

/-- Claim C9 counterexample: `check_estimates_on_outputs` accepts the
duplicated-estimate output even though its argument `v` is named by no
estimate. -/
theorem check_estimates_duplicate_counterexample :
    check_estimates_on_outputs [dupEstOut2] = true ∧
    ¬ (∀ out ∈ [dupEstOut2], ∀ a ∈ out.args,
        ∃ e ∈ out.sched.estimates, e.var = a) := by
  refine ⟨by decide, ?_⟩
  intro h
  have := h dupEstOut2 (by decide) "v" (by decide)
  revert this
  decide

/-- Claim C9 (amended): `check_estimates_on_outputs` returns true exactly
when, for every output, the number of estimates equals the number of pure
arguments and every estimate names some pure argument (not necessarily
distinct ones) and has integer-literal min and extent.  In particular any
symbolic or misnamed estimate is treated exactly like a missing estimate
and triggers the warning-and-compute-root fallback, but duplicate estimates
can mask a dimension that lacks one. -/
theorem check_estimates_on_outputs_iff (outputs : List FuncM) :
    check_estimates_on_outputs outputs = true ↔
      ∀ out ∈ outputs,
        out.sched.estimates.length = out.args.length ∧
        ∀ e ∈ out.sched.estimates,
          e.var ∈ out.args ∧ e.bmin.isSome = true ∧ e.extent.isSome = true := by
  simp only [check_estimates_on_outputs, check_output_estimates, List.all_eq_true,
    Bool.and_eq_true, decide_eq_true_eq, List.contains, List.elem_eq_mem,
    and_assoc]

/-- Claim C9 witness: `check_estimates_on_outputs_iff` applied to a
well-estimated single output, in the right-to-left direction. -/
def goodOut : FuncM :=
  { fname := "k"
    args := ["x"]
    sched := { store_level := LoopLevelM.root
               compute_level := LoopLevelM.root
               estimates := [⟨"x", some 0, some 99⟩] }
    update_scheds := [] }

/-- Claim C9 witness theorem. -/
theorem check_estimates_on_outputs_iff_witness :
    check_estimates_on_outputs [goodOut] = true :=
  (check_estimates_on_outputs_iff [goodOut]).mpr (by decide)

/-- A loop dimension of a stage definition's schedule (`Dim`): its variable
name and whether it is a reduction variable.  Dimension lists end with the
implicit `__outermost` dimension, which every loop of the source skips via
`d < dims.size() - 1`, modelled by `List.dropLast`. -/
structure DimM where
  var : String
  rvar : Bool
deriving DecidableEq, Repr

/-- Byte-wise lexicographic comparison of character lists, the order of
`std::string` for the ASCII names the scheduler manipulates. -/
def strLtb : List Char → List Char → Bool
  | [], [] => false
  | [], _ :: _ => true
  | _ :: _, [] => false
  | c :: cs, d :: ds =>
    if c.toNat < d.toNat then true
    else if d.toNat < c.toNat then false
    else strLtb cs ds

/-- Byte-wise lexicographic string comparison (`operator<` of
`std::string`). -/
def strLt (a b : String) : Bool := strLtb a.data b.data

/-- Ordered-map insertion mirroring `std::map<string,int>::operator[]`:
keys are kept sorted, so equal maps have equal representations (as needed
by the `tiling == m` deduplication test). -/
def mapInsert : List (String × Int) → String → Int → List (String × Int)
  | [], k, v => [(k, v)]
  | (k', v') :: rest, k, v =>
    if k = k' then (k, v) :: rest
    else if strLt k k' then (k, v) :: (k', v') :: rest
    else (k', v') :: mapInsert rest k v

/-- `size_variants` of `generate_tile_configs`. -/
def size_variants : List Int := [1, 4, 8, 16, 32, 64, 128, 256]

/-- `min_inner_dim_size` of `generate_tile_configs`. -/
def min_inner_dim_size : Int := 64

/-- The dimensions tiled by `generate_tile_configs` (lines 1121-1128): the
non-`__outermost` dimensions that are not reduction variables. -/
def tile_vars (dims : List DimM) : List String :=
  ((dims.dropLast).filter (fun d => !d.rvar)).map (fun d => d.var)

/-- Fill step of a skewed tile configuration: axes before the skew axis `i`
get the largest size variant (256), axes after it the smallest (1). -/
def skew_fill : List String → Nat → Nat → List (String × Int) → List (String × Int)
  | [], _, _, m => m
  | v :: rest, j, i, m =>
    skew_fill rest (j + 1) i
      (if j < i then mapInsert m v 256
       else if i < j then mapInsert m v 1
       else m)

/-- Fill step of an almost-square tile configuration: every axis gets the
size variant, the innermost at least `min_inner_dim_size`. -/
def square_fill : List String → Nat → Int → List (String × Int) → List (String × Int)
  | [], _, _, m => m
  | v :: rest, j, ds, m =>
    square_fill rest (j + 1) ds
      (mapInsert m v (if j = 0 then max ds min_inner_dim_size else ds))

/-- Fill step of a reorder tile configuration for bit mask `i`: axis `j` is
tiled iff bit `j` of `i` is set, with size `min_inner_dim_size` on axis 0
and 1 elsewhere. -/
def reorder_fill : List String → Nat → Nat → List (String × Int) → List (String × Int)
  | [], _, _, m => m
  | v :: rest, j, i, m =>
    reorder_fill rest (j + 1) i
      (if (i >>> j) % 2 = 1 then
        (if j = 0 then mapInsert m v min_inner_dim_size else mapInsert m v 1)
       else m)

/-- Push a just-built tiling onto the accumulated configuration list,
skipping empty tilings and exact duplicates (lines 1151-1159). -/
def push_config (acc : List (List (String × Int))) (tiling : List (String × Int)) :
    List (List (String × Int)) :=
  if tiling.isEmpty then acc
  else if acc.contains tiling then acc
  else acc ++ [tiling]

/-- The skewed phase of `generate_tile_configs` (lines 1138-1161): for each
axis index `i` and size variant, one configuration skewed around axis `i`. -/
def skewed_configs (tv : List String) : List (List (String × Int)) :=
  tv.enum.foldl (fun acc iv =>
    size_variants.foldl (fun acc ds =>
      push_config acc
        (skew_fill tv 0 iv.1
          (mapInsert [] iv.2 (if iv.1 = 0 then max ds min_inner_dim_size else ds))))
      acc) []

/-- The almost-square phase of `generate_tile_configs` (lines 1163-1179). -/
def square_configs (tv : List String) (acc : List (List (String × Int))) :
    List (List (String × Int)) :=
  size_variants.foldl (fun acc ds => push_config acc (square_fill tv 0 ds [])) acc

/-- The reorder phase of `generate_tile_configs` (lines 1181-1202): one
configuration per non-empty subset of the axes. -/
def reorder_configs (tv : List String) (acc : List (List (String × Int))) :
    List (List (String × Int)) :=
  (List.range (2 ^ tv.length)).foldl
    (fun acc i => push_config acc (reorder_fill tv 0 i [])) acc

/-- `Partitioner::generate_tile_configs` (lines 1110-1205): skewed, almost
square and reorder tile configurations over the pure loop variables, with
the innermost axis forced to at least `min_inner_dim_size`, deduplicated. -/
def generate_tile_configs (dims : List DimM) : List (List (String × Int)) :=
  reorder_configs (tile_vars dims)
    (square_configs (tile_vars dims) (skewed_configs (tile_vars dims)))

/-- The tile-size map installed by `Partitioner::evaluate_choice` in INLINE
mode (lines 1737-1749): size 1 for every non-`__outermost` loop variable of
the consumer stage, reduction variables included. -/
def inline_tile_sizes (dims : List DimM) : List (String × Int) :=
  (dims.dropLast).foldl (fun m d => mapInsert m d.var 1) []

theorem mem_mapInsert {m : List (String × Int)} {k : String} {v : Int}
    {kv : String × Int} (h : kv ∈ mapInsert m k v) : kv.1 = k ∨ kv ∈ m := by
  induction m with
  | nil =>
    simp only [mapInsert, List.mem_singleton] at h
    exact Or.inl (by rw [h])
  | cons hd tl ih =>
    simp only [mapInsert] at h
    split_ifs at h with h1 h2
    · rcases List.mem_cons.1 h with h' | h'
      · exact Or.inl (by rw [h'])
      · exact Or.inr (List.mem_cons_of_mem _ h')
    · rcases List.mem_cons.1 h with h' | h'
      · exact Or.inl (by rw [h'])
      · exact Or.inr h'
    · rcases List.mem_cons.1 h with h' | h'
      · exact Or.inr (h' ▸ List.mem_cons_self _ _)
      · rcases ih h' with h'' | h''
        · exact Or.inl h''
        · exact Or.inr (List.mem_cons_of_mem _ h'')

theorem lookup_mapInsert_self (m : List (String × Int)) (k : String) (v : Int) :
    lookupA (mapInsert m k v) k = some v := by
  induction m with
  | nil => simp [mapInsert, lookupA]
  | cons hd tl ih =>
    simp only [mapInsert]
    split_ifs with h1 h2
    · simp [lookupA]
    · simp [lookupA]
    · have hne : hd.1 ≠ k := fun h => h1 (h.symm)
      simp [lookupA, hne, ih]

theorem lookup_mapInsert_other (m : List (String × Int)) (k k' : String) (v : Int)
    (h : k ≠ k') : lookupA (mapInsert m k v) k' = lookupA m k' := by
  induction m with
  | nil => simp [mapInsert, lookupA, h]
  | cons hd tl ih =>
    simp only [mapInsert]
    split_ifs with h1 h2
    · subst h1
      simp [lookupA, h]
    · simp [lookupA, h]
    · simp only [lookupA, ih]

/-- Keys of a `skew_fill` result come from the variable list or the seed. -/
theorem skew_fill_keys (tv : List String) :
    ∀ j i m kv, kv ∈ skew_fill tv j i m → kv.1 ∈ tv ∨ kv ∈ m := by
  induction tv with
  | nil => intro j i m kv h; exact Or.inr h
  | cons v rest ih =>
    intro j i m kv h
    simp only [skew_fill] at h
    rcases ih _ _ _ _ h with h' | h'
    · exact Or.inl (List.mem_cons_of_mem _ h')
    · split_ifs at h' with h1 h2
      · rcases mem_mapInsert h' with h'' | h''
        · exact Or.inl (h'' ▸ List.mem_cons_self _ _)
        · exact Or.inr h''
      · rcases mem_mapInsert h' with h'' | h''
        · exact Or.inl (h'' ▸ List.mem_cons_self _ _)
        · exact Or.inr h''
      · exact Or.inr h'

/-- Keys of a `square_fill` result come from the variable list or the seed. -/
theorem square_fill_keys (tv : List String) :
    ∀ j ds m kv, kv ∈ square_fill tv j ds m → kv.1 ∈ tv ∨ kv ∈ m := by
  induction tv with
  | nil => intro j ds m kv h; exact Or.inr h
  | cons v rest ih =>
    intro j ds m kv h
    simp only [square_fill] at h
    rcases ih _ _ _ _ h with h' | h'
    · exact Or.inl (List.mem_cons_of_mem _ h')
    · rcases mem_mapInsert h' with h'' | h''
      · exact Or.inl (h'' ▸ List.mem_cons_self _ _)
      · exact Or.inr h''

/-- Keys of a `reorder_fill` result come from the variable list or the
seed. -/
theorem reorder_fill_keys (tv : List String) :
    ∀ j i m kv, kv ∈ reorder_fill tv j i m → kv.1 ∈ tv ∨ kv ∈ m := by
  induction tv with
  | nil => intro j i m kv h; exact Or.inr h
  | cons v rest ih =>
    intro j i m kv h
    simp only [reorder_fill] at h
    rcases ih _ _ _ _ h with h' | h'
    · exact Or.inl (List.mem_cons_of_mem _ h')
    · split_ifs at h' with h1 h2
      · rcases mem_mapInsert h' with h'' | h''
        · exact Or.inl (h'' ▸ List.mem_cons_self _ _)
        · exact Or.inr h''
      · rcases mem_mapInsert h' with h'' | h''
        · exact Or.inl (h'' ▸ List.mem_cons_self _ _)
        · exact Or.inr h''
      · exact Or.inr h'

/-- Configurations accumulated through `push_config` satisfy a predicate as
soon as the accumulator's entries and the pushed tiling do. -/
theorem push_config_mem {acc : List (List (String × Int))}
    {tiling cfg : List (String × Int)} (h : cfg ∈ push_config acc tiling) :
    cfg ∈ acc ∨ cfg = tiling := by
  simp only [push_config] at h
  split_ifs at h with h1 h2
  · exact Or.inl h
  · exact Or.inl h
  · rcases List.mem_append.1 h with h' | h'
    · exact Or.inl h'
    · exact Or.inr (List.mem_singleton.1 h')

/-- A fold preserves any invariant preserved by its step function on the
elements of the folded list. -/
theorem foldl_preserve {α β : Type} (P : α → Prop) (step : α → β → α) :
    ∀ (l : List β), (∀ acc b, b ∈ l → P acc → P (step acc b)) →
      ∀ (acc : α), P acc → P (l.foldl step acc) := by
  intro l
  induction l with
  | nil => intro _ acc h; exact h
  | cons b rest ih =>
    intro hstep acc h
    exact ih (fun acc' b' hb' => hstep acc' b' (List.mem_cons_of_mem _ hb')) _
      (hstep _ _ (List.mem_cons_self _ _) h)

/-- `push_config` preserves a per-configuration predicate that holds of the
pushed tiling. -/
theorem push_config_pred {P : List (String × Int) → Prop}
    {acc : List (List (String × Int))} {tiling : List (String × Int)}
    (hacc : ∀ c ∈ acc, P c) (ht : P tiling) :
    ∀ c ∈ push_config acc tiling, P c := by
  intro c hc
  rcases push_config_mem hc with h | h
  · exact hacc c h
  · exact h ▸ ht

/-- Claim C4 (amended): tile enumeration only ever assigns tile sizes to
pure (non-reduction, non-`__outermost`) loop variables of the stage — every
key of every configuration produced by `generate_tile_configs` is the
variable of some pure loop dimension; but INLINE-mode evaluation assigns
tile size 1 to every non-`__outermost` loop variable of the consumer stage,
reduction variables included, and that map becomes the merged group's
`tile_sizes`, so the no-reduction-variable invariant does not extend to
INLINE merges. -/
theorem tile_sizes_keys (dims : List DimM) :
    (∀ cfg ∈ generate_tile_configs dims, ∀ kv ∈ cfg,
      ∃ d ∈ dims.dropLast, kv.1 = d.var ∧ d.rvar = false) ∧
    (∀ d ∈ dims.dropLast, lookupA (inline_tile_sizes dims) d.var = some 1) := by
  constructor
  · intro cfg hcfg kv hkv
    have htv : kv.1 ∈ tile_vars dims := by
      have hnil : ∀ c ∈ ([] : List (List (String × Int))), ∀ p ∈ c,
          p.1 ∈ tile_vars dims := by
        intro c hc
        exact absurd hc (List.not_mem_nil _)
      have hskew : ∀ c ∈ skewed_configs (tile_vars dims), ∀ p ∈ c,
          p.1 ∈ tile_vars dims := by
        refine foldl_preserve
          (fun acc : List (List (String × Int)) => ∀ c ∈ acc, ∀ p ∈ c, p.1 ∈ tile_vars dims) _ _ ?_ _ hnil
        intro acc iv hb hacc
        have hiv : iv.2 ∈ tile_vars dims := by
          have h1 : (tile_vars dims)[iv.1]? = some iv.2 :=
            List.mem_enum_iff_getElem?.1 hb
          exact List.get?_mem (by simpa using h1)
        refine foldl_preserve
          (fun acc : List (List (String × Int)) => ∀ c ∈ acc, ∀ p ∈ c, p.1 ∈ tile_vars dims) _ _ ?_ _ hacc
        intro acc' ds _ hacc'
        refine push_config_pred hacc' ?_
        intro p hp
        rcases skew_fill_keys _ _ _ _ _ hp with hk | hk
        · exact hk
        · rcases mem_mapInsert hk with hk' | hk'
          · exact hk' ▸ hiv
          · exact absurd hk' (List.not_mem_nil _)
      have hsq : ∀ c ∈ square_configs (tile_vars dims) (skewed_configs (tile_vars dims)),
          ∀ p ∈ c, p.1 ∈ tile_vars dims := by
        refine foldl_preserve
          (fun acc : List (List (String × Int)) => ∀ c ∈ acc, ∀ p ∈ c, p.1 ∈ tile_vars dims) _ _ ?_ _ hskew
        intro acc ds _ hacc
        refine push_config_pred hacc ?_
        intro p hp
        rcases square_fill_keys _ _ _ _ _ hp with hk | hk
        · exact hk
        · exact absurd hk (List.not_mem_nil _)
      have hall : ∀ c ∈ generate_tile_configs dims, ∀ p ∈ c,
          p.1 ∈ tile_vars dims := by
        refine foldl_preserve
          (fun acc : List (List (String × Int)) => ∀ c ∈ acc, ∀ p ∈ c, p.1 ∈ tile_vars dims) _ _ ?_ _ hsq
        intro acc i _ hacc
        refine push_config_pred hacc ?_
        intro p hp
        rcases reorder_fill_keys _ _ _ _ _ hp with hk | hk
        · exact hk
        · exact absurd hk (List.not_mem_nil _)
      exact hall cfg hcfg kv hkv
    simp only [tile_vars, List.mem_map, List.mem_filter, Bool.not_eq_true'] at htv
    obtain ⟨d, ⟨hd, hdr⟩, hdv⟩ := htv
    exact ⟨d, hd, hdv.symm, hdr⟩
  · intro d hd
    have main : ∀ (l : List DimM) (m : List (String × Int)) (d : DimM),
        d ∈ l ∨ lookupA m d.var = some 1 →
        lookupA (l.foldl (fun m d => mapInsert m d.var 1) m) d.var = some 1 := by
      intro l
      induction l with
      | nil =>
        intro m d h
        rcases h with h | h
        · exact absurd h (List.not_mem_nil _)
        · exact h
      | cons hd' tl ih =>
        intro m d h
        rcases h with h | h
        · rcases List.mem_cons.1 h with h' | h'
          · subst h'
            exact ih _ _ (Or.inr (lookup_mapInsert_self m d.var 1))
          · exact ih _ _ (Or.inl h')
        · by_cases hv : hd'.var = d.var
          · exact ih _ _ (Or.inr (hv ▸ lookup_mapInsert_self m hd'.var 1))
          · exact ih _ _ (Or.inr ((lookup_mapInsert_other m hd'.var d.var 1 hv).trans h))
    exact main _ _ _ (Or.inl hd)

/-- The update-stage dimension list used to refute claim C4: a reduction
dimension `r`, a pure dimension `x` and the trailing `__outermost`. -/
def rvarDims : List DimM :=
  [⟨"r", true⟩, ⟨"x", false⟩, ⟨"__outermost", false⟩]

/-- Claim C4 counterexample: INLINE-mode evaluation assigns tile size 1 to
the reduction variable `r` of the consumer stage, so a reduction variable
does receive a tile size and, through `merge_groups`, ends up among the
keys of the merged group's `tile_sizes`. -/
theorem inline_tiles_rvar_counterexample :
    lookupA (inline_tile_sizes rvarDims) "r" = some 1 ∧
    (rvarDims.dropLast.any (fun d => d.var = "r" && d.rvar)) = true := by
  exact ⟨by decide, by decide⟩

/-- Claim C4 witness: `tile_sizes_keys` applied to `rvarDims`, with the
membership hypotheses discharged on the configuration `[("x", 64)]`
produced by the enumeration and on the dimension `x`. -/
theorem tile_sizes_keys_witness :
    (∃ d ∈ rvarDims.dropLast, ("x", (64 : Int)).1 = d.var ∧ d.rvar = false) ∧
    lookupA (inline_tile_sizes rvarDims) (DimM.mk "x" false).var = some 1 :=
  ⟨(tile_sizes_keys rvarDims).1 [("x", 64)] (by decide) ("x", 64) (by decide),
   (tile_sizes_keys rvarDims).2 ⟨"x", false⟩ (by decide)⟩

/-- A symbolic interval `{min, max}` with both endpoints restricted to the
shapes the partitioner's concrete paths distinguish: `some v` when the
endpoint has been resolved to the integer literal `v`, `none` for an
unresolved (symbolic or unbounded) endpoint, which is what `as<IntImm>()`
failing means to `get_extent`. -/
structure IntervalE where
  imin : Option Int
  imax : Option Int
deriving DecidableEq, Repr

/-- Modelled from the spec: `get_extent` (declared in `AutoScheduleUtils.h`,
not under `src/`) returns `max − min + 1` when both interval endpoints are
integer literals and `unknown` otherwise; downstream code relies on exactly
this contract ("unknown bounds propagate as unknown intervals"). -/
def get_extent (i : IntervalE) : Int :=
  match i.imin, i.imax with
  | some a, some b => b - a + 1
  | _, _ => unknown

theorem lookupA_insertA_self {κ α : Type} [DecidableEq κ]
    (m : List (κ × α)) (k : κ) (v : α) : lookupA (insertA m k v) k = some v := by
  induction m with
  | nil => simp [insertA, lookupA]
  | cons hd tl ih =>
    simp only [insertA]
    split_ifs with h1
    · simp [lookupA]
    · simp [lookupA, h1, ih]

theorem lookupA_insertA_other {κ α : Type} [DecidableEq κ]
    (m : List (κ × α)) (k k' : κ) (v : α) (h : k ≠ k') :
    lookupA (insertA m k v) k' = lookupA m k' := by
  induction m with
  | nil => simp [insertA, lookupA, h]
  | cons hd tl ih =>
    simp only [insertA]
    split_ifs with h1
    · subst h1
      simp [lookupA, h]
    · simp only [lookupA, ih]

/-- The per-dimension bound the claim describes: `[0, size − 1]` when the
dimension is tiled and the estimated extent covers at least two tiles, the
stage's full estimated bound otherwise. -/
def tileBound (tile_sizes : List (String × Int)) (v : String) (bound : IntervalE) :
    IntervalE :=
  match lookupA tile_sizes v with
  | some size =>
    if 2 * size ≤ get_extent bound then ⟨some 0, some (size - 1)⟩ else bound
  | none => bound

/-- Loop of `Partitioner::get_bounds_from_tile_sizes` (lines 1401-1432)
over the non-`__outermost` dimensions; `none` models the `get_element`
assertion firing on a dimension missing from the stage bounds. -/
def gbfts_go (def_bounds : List (String × IntervalE))
    (tile_sizes : List (String × Int)) :
    List DimM → List (String × IntervalE) → Option (List (String × IntervalE))
  | [], bounds => some bounds
  | d :: rest, bounds =>
    match lookupA def_bounds d.var with
    | none => none
    | some bound =>
      match lookupA tile_sizes d.var with
      | some size =>
        if 2 * size ≤ get_extent bound then
          gbfts_go def_bounds tile_sizes rest
            (insertA bounds d.var ⟨some 0, some (size - 1)⟩)
        else
          gbfts_go def_bounds tile_sizes rest (insertA bounds d.var bound)
      | none => gbfts_go def_bounds tile_sizes rest (insertA bounds d.var bound)

/-- `Partitioner::get_bounds_from_tile_sizes`, with the stage bounds
`get_bounds(s)` passed in as `def_bounds`. -/
def get_bounds_from_tile_sizes (dims : List DimM)
    (def_bounds : List (String × IntervalE)) (tile_sizes : List (String × Int)) :
    Option (List (String × IntervalE)) :=
  gbfts_go def_bounds tile_sizes dims.dropLast []

theorem gbfts_go_preserve (def_bounds : List (String × IntervalE))
    (tile_sizes : List (String × Int)) :
    ∀ (l : List DimM) (bounds res : List (String × IntervalE)) (k : String),
      (∀ x ∈ l, x.var ≠ k) →
      gbfts_go def_bounds tile_sizes l bounds = some res →
      lookupA res k = lookupA bounds k := by
  intro l
  induction l with
  | nil =>
    intro bounds res k _ h
    simp only [gbfts_go, Option.some.injEq] at h
    rw [← h]
  | cons d rest ih =>
    intro bounds res k hk h
    have hdk : d.var ≠ k := hk d (List.mem_cons_self _ _)
    have hk' : ∀ x ∈ rest, x.var ≠ k := fun x hx => hk x (List.mem_cons_of_mem _ hx)
    simp only [gbfts_go] at h
    rcases hdb : lookupA def_bounds d.var with _ | bound
    · simp [hdb] at h
    · rcases hts : lookupA tile_sizes d.var with _ | size
      · simp only [hdb, hts] at h
        rw [ih _ _ _ hk' h, lookupA_insertA_other _ _ _ _ hdk]
      · simp only [hdb, hts] at h
        split_ifs at h
        · rw [ih _ _ _ hk' h, lookupA_insertA_other _ _ _ _ hdk]
        · rw [ih _ _ _ hk' h, lookupA_insertA_other _ _ _ _ hdk]

theorem gbfts_go_lookup (def_bounds : List (String × IntervalE))
    (tile_sizes : List (String × Int)) :
    ∀ (l : List DimM) (bounds res : List (String × IntervalE)) (d : DimM)
      (bound : IntervalE),
      (l.map DimM.var).Nodup →
      gbfts_go def_bounds tile_sizes l bounds = some res →
      d ∈ l →
      lookupA def_bounds d.var = some bound →
      lookupA res d.var = some (tileBound tile_sizes d.var bound) := by
  intro l
  induction l with
  | nil =>
    intro bounds res d bound _ _ hd
    exact absurd hd (List.not_mem_nil _)
  | cons d0 rest ih =>
    intro bounds res d bound hnd h hd hb
    have hnd' : (rest.map DimM.var).Nodup := (List.nodup_cons.1 hnd).2
    have hd0rest : d0.var ∉ rest.map DimM.var := (List.nodup_cons.1 hnd).1
    rcases List.mem_cons.1 hd with rfl | hdrest
    · simp only [gbfts_go, hb] at h
      have hrest : ∀ x ∈ rest, x.var ≠ d.var := by
        intro x hx hxv
        exact hd0rest (hxv ▸ List.mem_map_of_mem DimM.var hx)
      rcases hts : lookupA tile_sizes d.var with _ | size
      · simp only [hts] at h
        rw [gbfts_go_preserve _ _ _ _ _ _ hrest h, lookupA_insertA_self]
        simp only [tileBound, hts]
      · simp only [hts] at h
        by_cases hle : 2 * size ≤ get_extent bound
        · rw [if_pos hle] at h
          rw [gbfts_go_preserve _ _ _ _ _ _ hrest h, lookupA_insertA_self]
          simp only [tileBound, hts, if_pos hle]
        · rw [if_neg hle] at h
          rw [gbfts_go_preserve _ _ _ _ _ _ hrest h, lookupA_insertA_self]
          simp only [tileBound, hts, if_neg hle]
    · simp only [gbfts_go] at h
      rcases hdb : lookupA def_bounds d0.var with _ | bound0
      · simp [hdb] at h
      · rcases hts : lookupA tile_sizes d0.var with _ | size
        · simp only [hdb, hts] at h
          exact ih _ _ _ _ hnd' h hdrest hb
        · simp only [hdb, hts] at h
          split_ifs at h
          · exact ih _ _ _ _ hnd' h hdrest hb
          · exact ih _ _ _ _ hnd' h hdrest hb

/-- Claim C8: for every stage and tile-size map, the per-dimension bound
produced by `get_bounds_from_tile_sizes` is `[0, tile_sizes[v] − 1]` exactly
when `tile_sizes` contains the dimension's variable and the estimated
extent along it is at least `2 × tile_sizes[v]`; in every other case (the
variable absent from `tile_sizes`, or the extent below twice the tile size,
including an unknown extent) the full estimated bound is used unchanged. -/
theorem get_bounds_from_tile_sizes_spec (dims : List DimM)
    (def_bounds : List (String × IntervalE)) (tile_sizes : List (String × Int))
    (res : List (String × IntervalE)) (d : DimM) (bound : IntervalE)
    (hnd : ((dims.dropLast).map DimM.var).Nodup)
    (hres : get_bounds_from_tile_sizes dims def_bounds tile_sizes = some res)
    (hd : d ∈ dims.dropLast)
    (hb : lookupA def_bounds d.var = some bound) :
    lookupA res d.var = some (tileBound tile_sizes d.var bound) :=
  gbfts_go_lookup def_bounds tile_sizes _ _ _ _ _ hnd hres hd hb

/-- Claim C8 witness: a two-dimensional stage with `x` tiled (extent 100 ≥
2·32, so the tile interval is used) and `y` tiled degenerately (extent 10 <
2·8, so the full bound survives), checked through
`get_bounds_from_tile_sizes_spec`. -/
theorem get_bounds_from_tile_sizes_spec_witness :
    lookupA (([("x", IntervalE.mk (some 0) (some 31)),
               ("y", IntervalE.mk (some 5) (some 14))]) : List (String × IntervalE))
        "x" = some ⟨some 0, some 31⟩ ∧
    lookupA [("x", IntervalE.mk (some 0) (some 31)),
             ("y", IntervalE.mk (some 5) (some 14))] "y" = some ⟨some 5, some 14⟩ :=
  ⟨by
    have h := get_bounds_from_tile_sizes_spec
      [⟨"x", false⟩, ⟨"y", false⟩, ⟨"__outermost", false⟩]
      [("x", ⟨some 0, some 99⟩), ("y", ⟨some 5, some 14⟩)]
      [("x", 32), ("y", 8)]
      [("x", ⟨some 0, some 31⟩), ("y", ⟨some 5, some 14⟩)]
      ⟨"x", false⟩ ⟨some 0, some 99⟩ (by decide) (by decide) (by decide) (by decide)
    exact h.trans (by decide),
   by
    have h := get_bounds_from_tile_sizes_spec
      [⟨"x", false⟩, ⟨"y", false⟩, ⟨"__outermost", false⟩]
      [("x", ⟨some 0, some 99⟩), ("y", ⟨some 5, some 14⟩)]
      [("x", 32), ("y", 8)]
      [("x", ⟨some 0, some 31⟩), ("y", ⟨some 5, some 14⟩)]
      ⟨"y", false⟩ ⟨some 5, some 14⟩ (by decide) (by decide) (by decide) (by decide)
    exact h.trans (by decide)⟩

/-- Total cost of a group analysis: arithmetic plus memory. -/
def ga_total (a : GroupAnalysisM) : Int := a.cost.arith + a.cost.memory

/-- Eligibility of a candidate analysis under `estimate_benefit(old, new,
no_redundant_work := false, ensure_parallelism := true)`: its parallelism
reaches the machine parallelism and both its costs are known. -/
def eligible (mp : Int) (a : GroupAnalysisM) : Prop :=
  ¬ a.parallelism < mp ∧ a.cost.arith ≠ unknown ∧ a.cost.memory ≠ unknown

instance (mp : Int) (a : GroupAnalysisM) : Decidable (eligible mp a) := by
  unfold eligible
  infer_instance

theorem unknown_lt_zero : unknown < 0 := by norm_num [unknown]

/-- `Partitioner::find_best_tile_config` (lines 1207-1256), with the
composite `analyze_group` of the group re-tiled by each candidate passed as
`analyze` and the `generate_tile_configs` output passed as `configs`: start
from the no-tile analysis, bail out if its arithmetic cost is unknown, then
keep the candidate whenever its benefit over the current best is strictly
positive. -/
def find_best_tile_config (mp : Int)
    (analyze : List (String × Int) → GroupAnalysisM)
    (configs : List (List (String × Int))) :
    List (String × Int) × GroupAnalysisM :=
  if (analyze []).cost.arith = unknown then ([], analyze [])
  else
    configs.foldl (fun best config =>
      if 0 < estimate_benefit mp best.2 (analyze config) false true then
        (config, analyze config)
      else best)
      ([], analyze [])

/-- Spec-side selection in the claim's vocabulary: scan the candidates in
enumeration order and move to a candidate only when it is eligible and has
strictly smaller total cost (strictly larger benefit), so that ties
preserve the earlier candidate. -/
def firstMin (mp : Int) (analyze : List (String × Int) → GroupAnalysisM) :
    List (List (String × Int)) → (List (String × Int) × GroupAnalysisM) →
      List (String × Int) × GroupAnalysisM
  | [], best => best
  | c :: rest, best =>
    if eligible mp (analyze c) ∧ ga_total (analyze c) < ga_total best.2 then
      firstMin mp analyze rest (c, analyze c)
    else
      firstMin mp analyze rest best

/-- Acceptance in `find_best_tile_config` is exactly eligibility plus a
strict improvement of the total cost, as long as the current best has known
costs. -/
theorem accept_iff (mp : Int) (b n : GroupAnalysisM)
    (hb1 : b.cost.arith ≠ unknown) (hb2 : b.cost.memory ≠ unknown) :
    0 < estimate_benefit mp b n false true ↔
      eligible mp n ∧ ga_total n < ga_total b := by
  have hu := unknown_lt_zero
  by_cases hp : n.parallelism < mp
  · have he : estimate_benefit mp b n false true = unknown := by
      unfold estimate_benefit
      rw [if_pos ⟨rfl, hp⟩]
    rw [he]
    constructor
    · intro hx
      exact absurd hx (by omega)
    · intro hx
      exact absurd hp hx.1.1
  · by_cases ha : n.cost.arith = unknown
    · have he : estimate_benefit mp b n false true = unknown := by
        unfold estimate_benefit
        rw [if_neg (fun hc => hp hc.2), if_neg (fun hc => hc.2 ha)]
      rw [he]
      constructor
      · intro hx
        exact absurd hx (by omega)
      · intro hx
        exact absurd ha hx.1.2.1
    · by_cases hm : n.cost.memory = unknown
      · have he : estimate_benefit mp b n false true = unknown := by
          unfold estimate_benefit
          rw [if_neg (fun hc => hp hc.2), if_pos ⟨hb1, ha⟩,
            if_neg (by simp), if_neg (fun hc => hc.2 hm)]
        rw [he]
        constructor
        · intro hx
          exact absurd hx (by omega)
        · intro hx
          exact absurd hm hx.1.2.2
      · have he : estimate_benefit mp b n false true =
            (b.cost.memory - n.cost.memory) + (b.cost.arith - n.cost.arith) := by
          unfold estimate_benefit
          rw [if_neg (fun hc => hp hc.2), if_pos ⟨hb1, ha⟩,
            if_neg (by simp), if_pos ⟨hb2, hm⟩]
        rw [he]
        unfold eligible ga_total
        constructor
        · intro hx
          exact ⟨⟨hp, ha, hm⟩, by omega⟩
        · intro hx
          omega

theorem fold_eq_firstMin (mp : Int)
    (analyze : List (String × Int) → GroupAnalysisM) :
    ∀ (l : List (List (String × Int)))
      (best : List (String × Int) × GroupAnalysisM),
      best.2.cost.arith ≠ unknown → best.2.cost.memory ≠ unknown →
      l.foldl (fun best config =>
          if 0 < estimate_benefit mp best.2 (analyze config) false true then
            (config, analyze config)
          else best) best
        = firstMin mp analyze l best := by
  intro l
  induction l with
  | nil => intro best _ _; rfl
  | cons c rest ih =>
    intro best hb1 hb2
    simp only [List.foldl, firstMin]
    by_cases hacc : eligible mp (analyze c) ∧ ga_total (analyze c) < ga_total best.2
    · rw [if_pos ((accept_iff mp best.2 (analyze c) hb1 hb2).2 hacc), if_pos hacc]
      exact ih _ hacc.1.2.1 hacc.1.2.2
    · rw [if_neg (fun hp => hacc ((accept_iff mp best.2 (analyze c) hb1 hb2).1 hp)),
        if_neg hacc]
      exact ih _ hb1 hb2

theorem firstMin_le (mp : Int)
    (analyze : List (String × Int) → GroupAnalysisM) :
    ∀ (l : List (List (String × Int)))
      (best : List (String × Int) × GroupAnalysisM),
      ga_total (firstMin mp analyze l best).2 ≤ ga_total best.2 ∧
      ∀ c ∈ l, eligible mp (analyze c) →
        ga_total (firstMin mp analyze l best).2 ≤ ga_total (analyze c) := by
  intro l
  induction l with
  | nil =>
    intro best
    exact ⟨le_refl _, fun c hc => absurd hc (List.not_mem_nil _)⟩
  | cons c rest ih =>
    intro best
    simp only [firstMin]
    by_cases hacc : eligible mp (analyze c) ∧ ga_total (analyze c) < ga_total best.2
    · rw [if_pos hacc]
      refine ⟨le_trans (ih (c, analyze c)).1 (le_of_lt hacc.2), ?_⟩
      intro c' hc' he
      rcases List.mem_cons.1 hc' with rfl | hc'
      · exact (ih (c', analyze c')).1
      · exact (ih (c, analyze c)).2 c' hc' he
    · rw [if_neg hacc]
      refine ⟨(ih best).1, ?_⟩
      intro c' hc' he
      rcases List.mem_cons.1 hc' with rfl | hc'
      · have : ¬ ga_total (analyze c') < ga_total best.2 := fun h => hacc ⟨he, h⟩
        exact le_trans (ih best).1 (by omega)
      · exact (ih best).2 c' hc' he

/-- Claim C6: `find_best_tile_config` initializes the best configuration to
the no-tile analysis and returns the first candidate (in enumeration order)
maximizing `estimate_benefit` with `no_redundant_work = false` and
`ensure_parallelism = true`: the scan moves off the current best exactly on
a strictly positive benefit, so it ends on the earliest candidate of
minimal total cost among the eligible ones (ties keep the earlier
candidate), the result never has larger total cost than any eligible
candidate, and never larger than the no-tile analysis. -/
theorem find_best_tile_config_spec (mp : Int)
    (analyze : List (String × Int) → GroupAnalysisM)
    (configs : List (List (String × Int)))
    (h1 : (analyze []).cost.arith ≠ unknown)
    (h2 : (analyze []).cost.memory ≠ unknown) :
    find_best_tile_config mp analyze configs =
      firstMin mp analyze configs ([], analyze []) ∧
    (∀ c ∈ configs, eligible mp (analyze c) →
      ga_total (find_best_tile_config mp analyze configs).2 ≤ ga_total (analyze c)) ∧
    ga_total (find_best_tile_config mp analyze configs).2 ≤ ga_total (analyze []) := by
  have heq : find_best_tile_config mp analyze configs =
      firstMin mp analyze configs ([], analyze []) := by
    unfold find_best_tile_config
    rw [if_neg h1]
    exact fold_eq_firstMin mp analyze configs ([], analyze []) h1 h2
  refine ⟨heq, ?_, ?_⟩
  · intro c hc he
    rw [heq]
    exact (firstMin_le mp analyze configs ([], analyze [])).2 c hc he
  · rw [heq]
    exact (firstMin_le mp analyze configs ([], analyze [])).1

/-- Concrete analysis oracle for the claim C6 witness: two eligible
candidates tie at total cost 20, one candidate lacks parallelism, and the
no-tile analysis costs 100. -/
def analyzeW : List (String × Int) → GroupAnalysisM := fun c =>
  if c = [("x", 8)] then ⟨⟨10, 10⟩, 8⟩
  else if c = [("x", 16)] then ⟨⟨10, 10⟩, 8⟩
  else if c = [] then ⟨⟨50, 50⟩, 8⟩
  else ⟨⟨10, 10⟩, 1⟩

/-- Candidate list for the claim C6 witness. -/
def configsW : List (List (String × Int)) := [[("x", 8)], [("x", 16)], [("x", 2)]]

/-- Claim C6 witness: `find_best_tile_config_spec` applied at machine
parallelism 4 to `analyzeW` and `configsW`; the fold agrees with the
first-minimizer scan and improves on the no-tile analysis, and both pick
the earlier of the two tied candidates. -/
theorem find_best_tile_config_spec_witness :
    find_best_tile_config 4 analyzeW configsW =
      firstMin 4 analyzeW configsW ([], analyzeW []) ∧
    ga_total (find_best_tile_config 4 analyzeW configsW).2 ≤ ga_total (analyzeW []) ∧
    find_best_tile_config 4 analyzeW configsW = ([("x", 8)], ⟨⟨10, 10⟩, 8⟩) :=
  ⟨(find_best_tile_config_spec 4 analyzeW configsW (by decide) (by decide)).1,
   (find_best_tile_config_spec 4 analyzeW configsW (by decide) (by decide)).2.2,
   by decide⟩

/-- Character-level helper for `get_base_name`: the suffix of the name
after its last `'.'` (the whole name when it has none). -/
def base_go : List Char → List Char → List Char
  | [], acc => acc
  | c :: rest, acc =>
    if c = '.' then base_go rest [] else base_go rest (acc ++ [c])

/-- `get_base_name` (lines 1932-1938): strip everything up to and including
the last dot of a schedule variable name. -/
def get_base_name (n : String) : String := String.mk (base_go n.data [])

/-- Ceiling division of `std::ceil((float)a / b)` for integer operands. -/
def ceilDivInt (a b : Int) : Int := -((-a).fdiv b)

/-- The vector length chosen by `vectorize_stage` (lines 1975-1978): the
maximum of the target's natural vector size over all output types of the
function.  Output types are modelled by their bit widths; the target's
`natural_vector_size` is the parameter `nvs`. -/
def vec_len (nvs : Nat → Int) (types : List Nat) : Int :=
  types.foldl (fun acc t => max acc (nvs t)) 0

/-- The widest output type of the function (largest bit width) — the
spec-side notion the claim compares the split factor against. -/
def widest_type (types : List Nat) : Nat := types.foldl max 0

/-- `can_vectorize` of the dimension scan (lines 1982-1985): reduction
variables must be parallelizable, pure variables always qualify. -/
def can_vectorize_dim (rvars : List String) (can_par : String → Bool)
    (dim_name : String) : Bool :=
  if rvars.contains dim_name then can_par dim_name else true

/-- The dimension scan of `vectorize_stage` (lines 1980-1993): the first
non-`__outermost` dimension with a known estimate at least `vl` that is
vectorizable. -/
def find_vec_dim (dims : List DimM) (rvars : List String)
    (can_par : String → Bool) (estimates : List (String × Int)) (vl : Int) :
    Option DimM :=
  (dims.dropLast).find? (fun d =>
    match lookupA estimates (get_base_name d.var) with
    | some e =>
      (e != unknown) && can_vectorize_dim rvars can_par (get_base_name d.var) &&
        decide (vl ≤ e)
    | none => false)

/-- `split_dim` (lines 1940-1965) restricted to what it returns and
mutates: the inner/outer variable names and the updated estimate map
(`estimate[inner] = factor`, `estimate[outer] = ceil(est / factor)`, the
original dropped); `none` models the `internal_assert` on a missing or
unknown estimate. -/
def split_dim (factor : Int) (name : String) (estimates : List (String × Int)) :
    Option (String × String × List (String × Int)) :=
  match lookupA estimates name with
  | none => none
  | some e =>
    if e = unknown then none
    else
      some (name ++ "_vi", name ++ "_vo",
        eraseA (insertA (insertA estimates (name ++ "_vi") factor)
          (name ++ "_vo") (ceilDivInt e factor)) name)

/-- Result of `vectorize_stage`: the updated reduction-variable set, the
updated estimate map, and the `(vectorized inner variable, split factor)`
pair when a vectorize directive was emitted. -/
structure VecResult where
  rvars : List String
  estimates : List (String × Int)
  vectorized : Option (String × Int)
deriving DecidableEq, Repr

/-- `vectorize_stage` (lines 1967-2022): pick the split factor as the
maximum natural vector size over the output types, scan for the first
vectorizable dimension with sufficient estimated extent, split it by the
factor, vectorize the inner half, and when the dimension was a reduction
variable replace it in the rvar set by both split halves. -/
def vectorize_stage (nvs : Nat → Int) (types : List Nat)
    (can_par : String → Bool) (dims : List DimM) (rvars : List String)
    (estimates : List (String × Int)) : Option VecResult :=
  match find_vec_dim dims rvars can_par estimates (vec_len nvs types) with
  | none => some ⟨rvars, estimates, none⟩
  | some d =>
    match split_dim (vec_len nvs types) (get_base_name d.var) estimates with
    | none => none
    | some (inner, outer, est') =>
      some ⟨(if rvars.contains (get_base_name d.var) then
              insertSet (insertSet (rvars.erase (get_base_name d.var)) inner) outer
             else rvars),
            est', some (inner, vec_len nvs types)⟩

theorem mem_insertSet {α : Type} [DecidableEq α] (l : List α) (x y : α) :
    x ∈ insertSet l y ↔ x ∈ l ∨ x = y := by
  unfold insertSet
  split_ifs with h
  · have hy : y ∈ l := by simpa [List.contains, List.elem_eq_mem] using h
    constructor
    · exact Or.inl
    · rintro (hx | rfl)
      · exact hx
      · exact hy
  · simp [List.mem_append]

/-- Claim C7 (amended): when `vectorize_stage` vectorizes, the split factor
is the maximum of the natural vector sizes over all output types (for a
multi-type function this is the width of the narrowest type, not of the
widest); the vectorized dimension has a known estimated extent at least
that factor and, if it is a reduction variable, is parallelizable; the
variable the vectorize directive targets is the inner half of the split;
and when the split dimension was a reduction variable the rvar set is
updated to contain both split halves in place of the original. -/
theorem vectorize_stage_spec (nvs : Nat → Int) (types : List Nat)
    (can_par : String → Bool) (dims : List DimM) (rvars : List String)
    (estimates : List (String × Int)) (st : VecResult) (v : String) (f : Int)
    (hnd : rvars.Nodup)
    (hst : vectorize_stage nvs types can_par dims rvars estimates = some st)
    (hv : st.vectorized = some (v, f)) :
    f = vec_len nvs types ∧
    ∃ d ∈ dims.dropLast,
      v = get_base_name d.var ++ "_vi" ∧
      (∃ e, lookupA estimates (get_base_name d.var) = some e ∧
        e ≠ unknown ∧ f ≤ e) ∧
      (rvars.contains (get_base_name d.var) = true →
        can_par (get_base_name d.var) = true) ∧
      (rvars.contains (get_base_name d.var) = true →
        ∀ x, x ∈ st.rvars ↔
          ((x ∈ rvars ∧ x ≠ get_base_name d.var) ∨
           x = get_base_name d.var ++ "_vi" ∨
           x = get_base_name d.var ++ "_vo")) ∧
      (rvars.contains (get_base_name d.var) = false → st.rvars = rvars) := by
  rcases hfd : find_vec_dim dims rvars can_par estimates (vec_len nvs types)
    with _ | d
  · rw [vectorize_stage, hfd] at hst
    simp only [Option.some.injEq] at hst
    rw [← hst] at hv
    exact absurd hv (by simp)
  · rw [vectorize_stage, hfd] at hst
    have hd_mem : d ∈ dims.dropLast := List.mem_of_find?_eq_some hfd
    have hd_pred := List.find?_some hfd
    rcases hle : lookupA estimates (get_base_name d.var) with _ | e
    · rw [hle] at hd_pred
      exact absurd hd_pred (by simp)
    · rw [hle] at hd_pred
      simp only [Bool.and_eq_true, bne_iff_ne, ne_eq, decide_eq_true_eq] at hd_pred
      obtain ⟨⟨hne, hcv⟩, hge⟩ := hd_pred
      simp only [split_dim, hle, if_neg hne] at hst
      simp only [Option.some.injEq] at hst
      rw [← hst] at hv
      simp only [Option.some.injEq, Prod.mk.injEq] at hv
      obtain ⟨hvv, hvf⟩ := hv
      refine ⟨hvf.symm, d, hd_mem, hvv.symm, ⟨e, hle, hne, hvf ▸ hge⟩, ?_, ?_, ?_⟩
      · intro hcontains
        unfold can_vectorize_dim at hcv
        rw [hcontains] at hcv
        simpa using hcv
      · intro hcontains
        intro x
        rw [← hst]
        simp only [if_pos hcontains]
        rw [mem_insertSet, mem_insertSet, hnd.mem_erase_iff]
        constructor
        · rintro ((⟨hxne, hx⟩ | rfl) | rfl)
          · exact Or.inl ⟨hx, hxne⟩
          · exact Or.inr (Or.inl rfl)
          · exact Or.inr (Or.inr rfl)
        · rintro (⟨hx, hxne⟩ | rfl | rfl)
          · exact Or.inl (Or.inl ⟨hxne, hx⟩)
          · exact Or.inl (Or.inr rfl)
          · exact Or.inr rfl
      · intro hcontains
        have hfalse : ¬ (rvars.contains (get_base_name d.var) = true) := by
          rw [hcontains]
          exact Bool.false_ne_true
        rw [← hst]
        simp only [if_neg hfalse]

/-- The two-type (8-bit and 32-bit) output used to refute the "widest
output type" reading of claim C7, with the natural vector size of a
128-bit vector unit: 16 lanes for the 8-bit type, 4 for the 32-bit one. -/
def nvsC : Nat → Int := fun b => 128 / (b : Int)

/-- Output bit widths of the counterexample function. -/
def typesC : List Nat := [8, 32]

/-- Dimensions of the counterexample stage. -/
def dimsC : List DimM := [⟨"x", false⟩, ⟨"__outermost", false⟩]

/-- Claim C7 counterexample: on a tuple-valued function with output types
of 8 and 32 bits, `vectorize_stage` splits by 16 — the maximum natural
vector size — whereas the natural vector width of the widest output type
(32 bits) is 4, so the chosen factor is not the natural width of the
widest output type. -/
theorem vectorize_widest_counterexample :
    vectorize_stage nvsC typesC (fun _ => true) dimsC [] [("x", 100)] =
      some ⟨[], [("x_vi", 16), ("x_vo", 7)], some ("x_vi", 16)⟩ ∧
    widest_type typesC = 32 ∧ nvsC (widest_type typesC) = 4 ∧ (16 : Int) ≠ 4 :=
  ⟨by decide, by decide, by decide, by decide⟩

/-- Single 32-bit output type for the claim C7 witness. -/
def typesW : List Nat := [32]

/-- Natural vector size oracle for the claim C7 witness. -/
def nvsW : Nat → Int := fun b => 256 / (b : Int)

/-- Update-stage dimensions for the claim C7 witness. -/
def dimsW : List DimM := [⟨"r", true⟩, ⟨"__outermost", false⟩]

/-- Claim C7 witness: `vectorize_stage_spec` applied to a parallelizable
reduction dimension `r` with estimate 64 and factor 8; the factor equals
the maximal natural vector size and the rvar set afterwards contains both
split halves and no longer `r`. -/
theorem vectorize_stage_spec_witness :
    ((8 : Int) = vec_len nvsW typesW) ∧
    ("r_vi" ∈ (VecResult.mk ["r_vi", "r_vo"] [("r_vi", 8), ("r_vo", 8)]
        (some ("r_vi", 8))).rvars ∧
      "r" ∉ (VecResult.mk ["r_vi", "r_vo"] [("r_vi", 8), ("r_vo", 8)]
        (some ("r_vi", 8))).rvars) :=
  ⟨(vectorize_stage_spec nvsW typesW (fun _ => true) dimsW ["r"] [("r", 64)]
      ⟨["r_vi", "r_vo"], [("r_vi", 8), ("r_vo", 8)], some ("r_vi", 8)⟩
      "r_vi" 8 (by decide) (by decide) (by decide)).1,
   by decide, by decide⟩

/-- A concrete interval of the region analysis, with both endpoints
resolved to integers (the bounds the partitioner queries with are concrete
after estimate substitution; symbolic simplification is the bounds
engine's identity-preserving job). -/
structure IntervalC where
  imin : Int
  imax : Int
deriving DecidableEq, Repr

/-- `Interval::make_intersection`: the interval of the pointwise larger
minimum and smaller maximum. -/
def make_intersection (a b : IntervalC) : IntervalC :=
  ⟨max a.imin b.imin, min a.imax b.imax⟩

/-- A box: one interval per storage dimension. -/
abbrev BoxC : Type := List IntervalC

/-- The overlap loop of `redundant_regions` (lines 463-485).  The source
looks the producer up in `regions_shifted` but compares the resulting
iterator against `regions.end()`; for distinct `std::map` objects that
comparison never holds, so when the producer is missing from the shifted
query the intended `continue` is never taken and the end iterator of
`regions_shifted` is dereferenced — modelled as `none` (crash/undefined
behaviour).  `none` also models the two `internal_assert`s (box sizes
matching, no duplicate producer). -/
def overlap_go (regions_shifted : List (String × BoxC)) :
    List (String × BoxC) → List (String × BoxC) → Option (List (String × BoxC))
  | [], overlaps => some overlaps
  | reg :: rest, overlaps =>
    match lookupA regions_shifted reg.1 with
    | none => none
    | some b_shifted =>
      if reg.2.length = b_shifted.length then
        if lookupA overlaps reg.1 = none then
          overlap_go regions_shifted rest
            (overlaps ++ [(reg.1, List.zipWith make_intersection reg.2 b_shifted)])
        else none
      else none

/-- `DependenceAnalysis::redundant_regions` (lines 432-493) for a fixed
stage and producer set, with the underlying `regions_required` query
abstracted as `rr` (a function of the bounds only): query at `bounds`,
query again at `bounds` shifted along `var` by the extent of its interval
(min and max both shifted), and intersect the two boxes per producer.
The final `simplify_box` is the identity on concrete intervals. -/
def redundant_regions (rr : List (String × IntervalC) → List (String × BoxC))
    (var : String) (bounds : List (String × IntervalC)) :
    Option (List (String × BoxC)) :=
  let shifted_bounds := bounds.map (fun b =>
    if b.1 = var then
      (b.1, IntervalC.mk (b.2.imin + (b.2.imax - b.2.imin + 1))
                         (b.2.imax + (b.2.imax - b.2.imin + 1)))
    else b)
  overlap_go (rr shifted_bounds) (rr bounds) []

/-- The query bounds of the claim C5 evidence: `x ∈ [0, 4]`. -/
def boundsC : List (String × IntervalC) := [("x", ⟨0, 4⟩)]

/-- A well-behaved `regions_required` oracle: producer `p` needs `[0, 9]`
at the original bounds and `[5, 14]` at the (shifted) bounds `x ∈ [5, 9]`. -/
def rrGood : List (String × IntervalC) → List (String × BoxC) := fun b =>
  if b = boundsC then [("p", [⟨0, 9⟩])] else [("p", [⟨5, 14⟩])]

/-- An oracle on which the shifted query loses the producer: `p` appears at
the original bounds but not at the shifted ones — the case the source's
comment says should be skipped silently. -/
def rrBug : List (String × IntervalC) → List (String × BoxC) := fun b =>
  if b = boundsC then [("p", [⟨0, 9⟩])] else []

/-- Claim C5, the code bug at its failing input: on the well-behaved oracle
`redundant_regions` returns the per-dimension intersection of the original
and shifted regions (`[0,9] ∩ [5,14] = [5,9]`), as the claim describes; but
when the producer is missing from the shifted query the result is a crash
(`none`) — the producer is *not* dropped silently, because the iterator
from `regions_shifted` is compared against `regions.end()`, the guard never
fires, and the end iterator is dereferenced. -/
theorem redundant_regions_behavior :
    redundant_regions rrGood "x" boundsC = some [("p", [⟨5, 9⟩])] ∧
    redundant_regions rrBug "x" boundsC = none :=
  ⟨by decide, by decide⟩

/-- A box over estimate-resolved intervals. -/
abbrev BoxE : Type := List IntervalE

/-- Modelled from the spec: `box_size` (from `AutoScheduleUtils.h`, not
under `src/`) is the product of the dimension extents of a box, with the
spec's rule that "any unknown in any footprint, load, or extent forces the
whole analysis to unknown": any unknown extent makes the size unknown. -/
def box_size (b : BoxE) : Int :=
  b.foldl (fun acc i =>
    if acc = unknown then unknown
    else if get_extent i = unknown then unknown
    else acc * get_extent i) 1

/-- Modelled from the spec: `combine_load_costs` (from
`AutoScheduleUtils.h`, not under `src/`) merges per-callee load-count maps
by adding counts for common callees, propagating unknown. -/
def combine_load_costs (result more : List (String × Int)) : List (String × Int) :=
  more.foldl (fun res p =>
    match lookupA res p.1 with
    | none => res ++ [p]
    | some v => insertA res p.1 (if v = unknown ∨ p.2 = unknown then unknown else v + p.2))
    result

/-- The memory cost factor of `analyze_group` (lines 1612-1669):
`trunc(min(1 + footprint · balance / last_level_cache_size, balance))`.
The source computes this in single-precision float; here it is the exact
rational value, truncated toward zero, under the (always satisfied)
assumption that the machine's cache size is positive. -/
def cost_factor (balance llc footprint : Int) : Int :=
  if llc + footprint * balance ≤ balance * llc then
    (llc + footprint * balance).tdiv llc
  else balance

/-- A function stage `(func_name, stage_index)`. -/
structure FStageM where
  fname : String
  stage : Nat
deriving DecidableEq, Repr

/-- `Partitioner::Group`: output stage, members, inlined set, tile sizes. -/
structure GroupM where
  output : FStageM
  members : List FStageM
  inlined : List String
  tile_sizes : List (String × Int)
deriving DecidableEq, Repr

/-- The region-cost oracle (`RegionCosts`, an external collaborator): the
answers `analyze_group` consumes, one field per member function it calls. -/
structure RegionCostsM where
  region_cost : List (String × BoxE) → List String → CostM
  stage_region_cost : String → Nat → List (String × IntervalE) → List String → CostM
  detailed_load_costs : List (String × BoxE) → List String → List (String × Int)
  stage_detailed_load_costs :
    String → Nat → List (String × IntervalE) → List String → List (String × Int)
  region_size : String → BoxE → Int
  input_region_size : String → BoxE → Int

/-- The dependence analyzer and environment as `analyze_group` sees them:
the set of pipeline function names, the `regions_required` query, and
`get_parents` (the `FindCalls`-based parent enumeration, external). -/
structure DepAnalysisM where
  env : List String
  regions_required :
    String → Nat → List (String × IntervalE) → List String → Bool → List (String × BoxE)
  parents : String → Nat → List String

/-- `MachineParams` of the target. -/
structure ArchParamsM where
  parallelism : Int
  last_level_cache_size : Int
  balance : Int
deriving DecidableEq, Repr

/-- Everything `Partitioner::analyze_group` reads besides the group
itself: oracles, machine parameters, pipeline bounds, and the output
stage's dimension list, pure arguments, stage bounds (`get_bounds`) and
rvar-parallelizability predicate. -/
structure AnalyzeCtx where
  dep : DepAnalysisM
  costs : RegionCostsM
  arch : ArchParamsM
  pipeline_bounds : List (String × BoxE)
  out_dims : List DimM
  out_args : List String
  stg_bounds : List (String × IntervalE)
  can_par : String → Bool

/-- Outcome of the tile-counting loop of `analyze_group` (lines
1458-1490): an assertion failure, an early unknown return, or the pair of
the tile count and the parallelism estimate. -/
inductive TilesRes
  | assert_fail
  | unknown_ret
  | tiles_ok (tiles : Int) (par : Int)
deriving DecidableEq, Repr

/-- The tile-counting loop: for every non-`__outermost` dimension with a
tile size, multiply the tile count (and, for parallelizable dimensions,
the parallelism) by `ceil(extent / size)`; an unknown extent aborts the
analysis with the unknown result.  (`num_ele_per_tile` of the source is
accumulated but never read afterwards and is omitted.) -/
def tiles_go (ctx : AnalyzeCtx) (g : GroupM) :
    List DimM → Int → Int → TilesRes
  | [], tiles, par => .tiles_ok tiles par
  | d :: rest, tiles, par =>
    match lookupA g.tile_sizes d.var with
    | none => tiles_go ctx g rest tiles par
    | some size =>
      match lookupA ctx.stg_bounds d.var with
      | none => .assert_fail
      | some bound =>
        if get_extent bound = unknown then .unknown_ret
        else
          tiles_go ctx g rest (tiles * ceilDivInt (get_extent bound) size)
            (if ctx.can_par d.var then par * ceilDivInt (get_extent bound) size
             else par)

/-- The names of the group members (`group_members`, lines 1438-1442). -/
def group_member_names (g : GroupM) : List String :=
  g.members.map FStageM.fname

/-- The state of `analyze_group` at the top of its detailed-load loop. -/
structure PreState where
  estimate_tiles : Int
  par : Int
  per_tile_arith : Int
  group_members : List String
  alloc_regions : List (String × BoxE)
  combined_loads : List (String × Int)
  out_tile_extent : BoxE
deriving DecidableEq, Repr

/-- Outcome of the part of `analyze_group` before the detailed-load loop. -/
inductive PreRes
  | assert_fail
  | unknown_ret
  | pre_ok (st : PreState)
deriving DecidableEq, Repr

/-- `Partitioner::analyze_group` (lines 1434-1691) up to the detailed-load
loop: count tiles, compute the tile bounds, query the allocated and
computed regions, split out the group-internal regions, get the oracle's
tile and output costs (early unknown return when any is unknown, or when
an allocated region has unknown size), combine the detailed load maps and
compute the output tile extent.  The regions split into `prod_reg` and
`input_reg` feed only debug display and are not carried. -/
def analyze_pre (ctx : AnalyzeCtx) (g : GroupM) : PreRes :=
  match tiles_go ctx g ctx.out_dims.dropLast 1 1 with
  | .assert_fail => .assert_fail
  | .unknown_ret => .unknown_ret
  | .tiles_ok estimate_tiles par =>
    match get_bounds_from_tile_sizes ctx.out_dims ctx.stg_bounds g.tile_sizes with
    | none => .assert_fail
    | some tile_bounds =>
      let group_members := group_member_names g
      let alloc_regions := ctx.dep.regions_required g.output.fname g.output.stage
        tile_bounds group_members false
      let compute_regions := ctx.dep.regions_required g.output.fname g.output.stage
        tile_bounds group_members true
      let group_reg := compute_regions.filter (fun reg =>
        group_members.contains reg.1 && reg.1 != g.output.fname)
      let tile_cost := ctx.costs.region_cost group_reg g.inlined
      if tile_cost.arith = unknown ∨ tile_cost.memory = unknown then .unknown_ret
      else
        let out_cost := ctx.costs.stage_region_cost g.output.fname g.output.stage
          tile_bounds g.inlined
        if out_cost.arith = unknown ∨ out_cost.memory = unknown then .unknown_ret
        else if alloc_regions.any (fun reg => box_size reg.2 = unknown) then
          .unknown_ret
        else
          let combined := combine_load_costs
            (ctx.costs.detailed_load_costs group_reg g.inlined)
            (ctx.costs.stage_detailed_load_costs g.output.fname g.output.stage
              tile_bounds g.inlined)
          let out_tile_extent : BoxE :=
            if g.output.stage = 0 then
              (ctx.out_args.dropLast).map (fun a =>
                match lookupA tile_bounds a with
                | some i => i
                | none => ⟨none, none⟩)
            else []
          .pre_ok ⟨estimate_tiles, par, tile_cost.arith + out_cost.arith,
                   group_members, alloc_regions, combined, out_tile_extent⟩

/-- Outcome of the detailed-load loop. -/
inductive LoadRes
  | assert_fail
  | unknown_ret
  | load_done (mem : Int)
deriving DecidableEq, Repr

/-- The detailed-load loop of `analyze_group` (lines 1612-1671): every
loaded function must not be inlined (invariant I6, an `internal_assert`)
and must have an allocated region; group members other than the output use
the allocated region inside the tile as footprint, every other load uses
its first-access (pipeline-bounds) footprint because `model_reuse` is off,
with an early unknown return on an unknown non-member footprint; each load
contributes `cost_factor(footprint) × loads`. -/
def load_go (ctx : AnalyzeCtx) (g : GroupM) (pre : PreState) :
    List (String × Int) → Int → LoadRes
  | [], mem => .load_done mem
  | fl :: rest, mem =>
    if g.inlined.contains fl.1 then .assert_fail
    else
      match lookupA pre.alloc_regions fl.1 with
      | none => .assert_fail
      | some alloc_reg =>
        if fl.1 ≠ g.output.fname ∧ pre.group_members.contains fl.1 = true then
          load_go ctx g pre rest
            (mem + cost_factor ctx.arch.balance ctx.arch.last_level_cache_size
              (ctx.costs.region_size fl.1 alloc_reg) * fl.2)
        else
          match lookupA ctx.pipeline_bounds fl.1 with
          | none => .assert_fail
          | some pb =>
            let fp : Option Int :=
              if ctx.dep.env.contains fl.1 = false then
                some (ctx.costs.input_region_size fl.1 pb)
              else if fl.1 = g.output.fname then
                if pre.group_members.contains fl.1 then
                  some (ctx.costs.region_size fl.1 pb)
                else none
              else some (ctx.costs.region_size fl.1 pb)
            match fp with
            | none => .assert_fail
            | some footprint =>
              if footprint = unknown then .unknown_ret
              else
                load_go ctx g pre rest
                  (mem + cost_factor ctx.arch.balance
                    ctx.arch.last_level_cache_size footprint * fl.2)

/-- `Partitioner::analyze_group`: `none` models an `internal_assert`
firing — in particular the final `internal_assert(per_tile_cost.memory >
0)` immediately before the return; early returns yield the all-unknown
analysis; otherwise the per-tile costs are scaled by the tile count. -/
def analyze_group (ctx : AnalyzeCtx) (g : GroupM) : Option GroupAnalysisM :=
  match analyze_pre ctx g with
  | .assert_fail => none
  | .unknown_ret => some unknownAnalysis
  | .pre_ok pre =>
    match load_go ctx g pre pre.combined_loads 0 with
    | .assert_fail => none
    | .unknown_ret => some unknownAnalysis
    | .load_done mem =>
      if 0 < mem then
        some ⟨⟨pre.per_tile_arith * pre.estimate_tiles, mem * pre.estimate_tiles⟩,
              pre.par⟩
      else none

/-- Claim C10: whenever `analyze_group` runs to completion with a known
(non-unknown) analysis, the computed per-tile memory cost is strictly
positive — the assertion before the return guarantees it — and a group
whose combined detailed-load map is empty reaches that assertion with a
per-tile memory cost of zero, so the analysis aborts rather than report
zero memory cost. -/
theorem analyze_group_memory_positive :
    (∀ (ctx : AnalyzeCtx) (g : GroupM) (a : GroupAnalysisM),
      analyze_group ctx g = some a → a.cost.arith ≠ unknown →
      ∃ pre mem, analyze_pre ctx g = .pre_ok pre ∧
        load_go ctx g pre pre.combined_loads 0 = .load_done mem ∧
        0 < mem ∧ a.cost.memory = mem * pre.estimate_tiles) ∧
    (∀ (ctx : AnalyzeCtx) (g : GroupM) (pre : PreState),
      analyze_pre ctx g = .pre_ok pre → pre.combined_loads = [] →
      analyze_group ctx g = none) := by
  constructor
  · intro ctx g a h harith
    rcases hpre : analyze_pre ctx g with _ | _ | pre
    · simp only [analyze_group, hpre] at h
      exact absurd h (by simp)
    · simp only [analyze_group, hpre, Option.some.injEq] at h
      subst h
      exact (harith rfl).elim
    · rcases hld : load_go ctx g pre pre.combined_loads 0 with _ | _ | mem
      · simp only [analyze_group, hpre, hld] at h
        exact absurd h (by simp)
      · simp only [analyze_group, hpre, hld, Option.some.injEq] at h
        subst h
        exact (harith rfl).elim
      · simp only [analyze_group, hpre, hld] at h
        by_cases hm : 0 < mem
        · rw [if_pos hm] at h
          simp only [Option.some.injEq] at h
          refine ⟨pre, mem, rfl, hld, hm, ?_⟩
          rw [← h]
        · rw [if_neg hm] at h
          exact absurd h (by simp)
  · intro ctx g pre hpre hloads
    simp only [analyze_group, hpre, hloads]
    rfl

/-- Concrete context for the claim C10 witness: a one-stage group `f` over
`x ∈ [0, 9]` loading 4 values from the pipeline input `in` with footprint
10 on a machine with balance 40 and cache size 100. -/
def ctxW : AnalyzeCtx :=
  { dep := ⟨["f"],
      fun _ _ _ _ _ => [("f", [⟨some 0, some 9⟩]), ("in", [⟨some 0, some 9⟩])],
      fun _ _ => ["in"]⟩
    costs := ⟨fun _ _ => ⟨0, 0⟩, fun _ _ _ _ => ⟨5, 5⟩, fun _ _ => [],
      fun _ _ _ _ => [("in", 4)], fun _ _ => 10, fun _ _ => 10⟩
    arch := ⟨16, 100, 40⟩
    pipeline_bounds := [("f", [⟨some 0, some 9⟩]), ("in", [⟨some 0, some 9⟩])]
    out_dims := [⟨"x", false⟩, ⟨"__outermost", false⟩]
    out_args := ["x"]
    stg_bounds := [("x", ⟨some 0, some 9⟩)]
    can_par := fun _ => true }

/-- The same context with no loads at all: the combined detailed-load map
is empty. -/
def ctxW2 : AnalyzeCtx :=
  { ctxW with
    costs := ⟨fun _ _ => ⟨0, 0⟩, fun _ _ _ _ => ⟨5, 5⟩, fun _ _ => [],
      fun _ _ _ _ => [], fun _ _ => 10, fun _ _ => 10⟩ }

/-- The witness group: `f`'s single pure stage, untiled. -/
def gW : GroupM := ⟨⟨"f", 0⟩, [⟨"f", 0⟩], [], []⟩

/-- The pre-loop state `analyze_pre ctxW2 gW` reaches. -/
def preW2 : PreState :=
  ⟨1, 1, 5, ["f"], [("f", [⟨some 0, some 9⟩]), ("in", [⟨some 0, some 9⟩])], [], []⟩

/-- Claim C10 witness: `analyze_group_memory_positive` applied to `ctxW`
(whose analysis completes with memory cost 20 and a strictly positive
per-tile memory cost) and to `ctxW2` (whose empty load map makes the
analysis abort). -/
theorem analyze_group_memory_positive_witness :
    (∃ pre mem, analyze_pre ctxW gW = .pre_ok pre ∧
      load_go ctxW gW pre pre.combined_loads 0 = .load_done mem ∧
      0 < mem ∧
      (GroupAnalysisM.mk ⟨5, 20⟩ 1).cost.memory = mem * pre.estimate_tiles) ∧
    analyze_group ctxW2 gW = none :=
  ⟨analyze_group_memory_positive.1 ctxW gW ⟨⟨5, 20⟩, 1⟩ (by decide) (by decide),
   analyze_group_memory_positive.2 ctxW2 gW preW2 (by decide) rfl⟩

/-- The partitioner state that `Partitioner::group` reads for its cost
bookkeeping: the keys of the group map and the per-group analysis map
(`group_costs`). -/
structure PStateM where
  groups : List FStageM
  group_costs : List (FStageM × GroupAnalysisM)
deriving DecidableEq, Repr

/-- `Partitioner::get_pipeline_cost` (lines 870-880): assert the cost map
is non-empty, then sum the arithmetic and memory costs of every group;
`none` models the `internal_assert` (also the one inside `get_element`)
firing. -/
def get_pipeline_cost (s : PStateM) : Option CostM :=
  if s.group_costs.isEmpty then none
  else
    s.groups.foldlM (fun (acc : CostM) stg =>
      (lookupA s.group_costs stg).map (fun analysis =>
        ⟨acc.arith + analysis.cost.arith, acc.memory + analysis.cost.memory⟩))
      ⟨0, 0⟩

/-- One iteration of the fixpoint loop of `Partitioner::group` (lines
1260-1387), with the candidate collection, choice and merge application
(lines 1266-1378) abstracted as `merge_step` — `none` meaning no candidate
had positive benefit (`best.empty()`, the iteration leaves the state
unchanged and the loop exits).  The iteration reads the pipeline cost
before and after the merge and the trailing
`internal_assert((pre.arith + pre.memory) >= (post.arith + post.memory))`
aborts (`none`) when the merged cost exceeds the pre-merge cost. -/
def group_iteration (merge_step : PStateM → Option PStateM) (s : PStateM) :
    Option (Option PStateM) :=
  match get_pipeline_cost s with
  | none => none
  | some pre =>
    match merge_step s with
    | none => some none
    | some s' =>
      match get_pipeline_cost s' with
      | none => none
      | some post =>
        if post.arith + post.memory ≤ pre.arith + pre.memory then some (some s')
        else none

/-- The fixpoint driver of `Partitioner::group`, with explicit fuel (the
source loop runs until no candidate has positive benefit). -/
def group_fixpoint (merge_step : PStateM → Option PStateM) :
    Nat → PStateM → Option PStateM
  | 0, s => some s
  | fuel + 1, s =>
    match group_iteration merge_step s with
    | none => none
    | some none => some s
    | some (some s') => group_fixpoint merge_step fuel s'

/-- Claim C1: in the grouping fixpoint loop, after every applied merge the
total pipeline cost — the sum over all groups of arithmetic plus memory
cost — is non-increasing; the assertion at the end of each iteration of
`Partitioner::group` enforces exactly this, so an iteration that applies a
merge completes only when the post-merge total is at most the pre-merge
total, and along any completed run of the loop the total never increases. -/
theorem group_merge_cost_monotone :
    (∀ (merge_step : PStateM → Option PStateM) (s s' : PStateM) (pre post : CostM),
      group_iteration merge_step s = some (some s') →
      get_pipeline_cost s = some pre →
      get_pipeline_cost s' = some post →
      post.arith + post.memory ≤ pre.arith + pre.memory) ∧
    (∀ (merge_step : PStateM → Option PStateM) (fuel : Nat) (s s' : PStateM)
      (pre post : CostM),
      group_fixpoint merge_step fuel s = some s' →
      get_pipeline_cost s = some pre →
      get_pipeline_cost s' = some post →
      post.arith + post.memory ≤ pre.arith + pre.memory) := by
  have hstep : ∀ (merge_step : PStateM → Option PStateM) (s s' : PStateM)
      (pre post : CostM),
      group_iteration merge_step s = some (some s') →
      get_pipeline_cost s = some pre →
      get_pipeline_cost s' = some post →
      post.arith + post.memory ≤ pre.arith + pre.memory := by
    intro merge_step s s' pre post h hpre hpost
    rcases hm : merge_step s with _ | s₁
    · simp only [group_iteration, hpre, hm] at h
      exact absurd h (by simp)
    · rcases hp : get_pipeline_cost s₁ with _ | post₁
      · simp only [group_iteration, hpre, hm, hp] at h
        exact absurd h (by simp)
      · simp only [group_iteration, hpre, hm, hp] at h
        split_ifs at h with hle
        · simp only [Option.some.injEq] at h
          subst h
          rw [hp] at hpost
          simp only [Option.some.injEq] at hpost
          rw [← hpost]
          exact hle
  refine ⟨hstep, ?_⟩
  intro merge_step fuel
  induction fuel with
  | zero =>
    intro s s' pre post h hpre hpost
    simp only [group_fixpoint, Option.some.injEq] at h
    rw [← h] at hpost
    rw [hpre] at hpost
    simp only [Option.some.injEq] at hpost
    rw [← hpost]
  | succ n ih =>
    intro s s' pre post h hpre hpost
    unfold group_fixpoint at h
    rcases hit : group_iteration merge_step s with _ | s₁
    · rw [hit] at h
      exact absurd h (by simp)
    · rw [hit] at h
      rcases s₁ with _ | s₂
      · simp only [Option.some.injEq] at h
        rw [← h] at hpost
        rw [hpre] at hpost
        simp only [Option.some.injEq] at hpost
        rw [← hpost]
      · have hmid : ∃ mid, get_pipeline_cost s₂ = some mid := by
          rcases hpre' : get_pipeline_cost s with _ | pre'
          · simp only [group_iteration, hpre'] at hit
            exact absurd hit (by simp)
          · rcases hm : merge_step s with _ | s₃
            · simp only [group_iteration, hpre', hm] at hit
              exact absurd hit (by simp)
            · rcases hp : get_pipeline_cost s₃ with _ | post₁
              · simp only [group_iteration, hpre', hm, hp] at hit
                exact absurd hit (by simp)
              · simp only [group_iteration, hpre', hm, hp] at hit
                split_ifs at hit with hle
                · simp only [Option.some.injEq] at hit
                  rw [← hit]
                  exact ⟨post₁, hp⟩
        obtain ⟨mid, hmid⟩ := hmid
        have h1 := hstep merge_step s s₂ pre mid hit hpre hmid
        have h2 := ih s₂ s' mid post h hmid hpost
        omega

/-- A two-group witness state whose merge collapses everything into one
group of smaller total cost. -/
def stateW : PStateM :=
  ⟨[⟨"f", 0⟩, ⟨"g", 0⟩],
   [(⟨"f", 0⟩, ⟨⟨10, 10⟩, 4⟩), (⟨"g", 0⟩, ⟨⟨20, 20⟩, 4⟩)]⟩

/-- The merged witness state. -/
def stateW2 : PStateM := ⟨[⟨"g", 0⟩], [(⟨"g", 0⟩, ⟨⟨25, 15⟩, 4⟩)]⟩

/-- The merge step of the claim C1 witness: always merge `stateW` into
`stateW2`. -/
def mergeW : PStateM → Option PStateM := fun _ => some stateW2

/-- Claim C1 witness: `group_merge_cost_monotone` applied to the concrete
merge from total cost 60 to total cost 40, both through one iteration and
through the fuelled fixpoint loop. -/
theorem group_merge_cost_monotone_witness :
    (CostM.mk 25 15).arith + (CostM.mk 25 15).memory ≤
      (CostM.mk 30 30).arith + (CostM.mk 30 30).memory ∧
    (CostM.mk 25 15).arith + (CostM.mk 25 15).memory ≤
      (CostM.mk 30 30).arith + (CostM.mk 30 30).memory :=
  ⟨group_merge_cost_monotone.1 mergeW stateW stateW2 ⟨30, 30⟩ ⟨25, 15⟩
     (by decide) (by decide) (by decide),
   group_merge_cost_monotone.2 mergeW 3 stateW stateW2 ⟨30, 30⟩ ⟨25, 15⟩
     (by decide) (by decide) (by decide)⟩

end AutoSched
